import Mathlib

/-!
Shallow embedding of the type assignability library in src/types.rs.

The Rust library defines three representations of types behind a dynamic
Type capability: Primitive (an enum compared by structural equality),
Trait (a reference counted node holding a list of supertrait references,
compared by pointer identity), and Function (an ordered list of named
arguments plus a return type, compared structurally with variance).
Assignability is a double dispatch protocol: a query a.is_assignable_to(b)
first offers b a chance to decide via b.is_supertype_of(a) (an override
hook defaulting to None, which no shipped representation overrides), then
falls back to narrowing b to the concrete representation of a and applying
a representation specific rule.

Modelling choices, justified against the source:
- Trait nodes live behind Arc pointers and are immutable after
  construction; Trait::new and Trait::new_arc only accept references to
  previously constructed Arc values. We therefore model the trait store as
  an arena: node number i holds the list of indices of its direct
  supertraits, and well-formedness demands that every supertrait index is
  strictly smaller than i (a supertrait always exists before the trait
  that references it). Pointer identity of two Arc values is index
  equality in the arena.
- The hook is_supertype_of is one function of the candidate and the
  receiver; the shipped default returns None for every pair. The general
  dispatch, isAssignableToWith, is parametric in the hook so the claims
  about the protocol itself can quantify over arbitrary overriding
  representations; the shipped relation isAssignableTo instantiates the
  hook with the default.
- Rust usize widths become Nat; Box str argument names become String.
-/

namespace MagTc

/-- Primitive from src/types.rs: variants Void, Boolean, Int(usize),
UInt(usize); derives PartialEq, so equality is variant plus width. -/
inductive Primitive where
  | Void
  | Boolean
  | Int (width : Nat)
  | UInt (width : Nat)
deriving DecidableEq

/-- The closed universe of the three shipped representations. prim embeds
Primitive; trait i is the trait node with arena index i; func carries the
ordered argument list (name and argument type, as FunctionArgument does)
and the return type. -/
inductive Ty where
  | prim (p : Primitive)
  | trait (id : Nat)
  | func (args : List (String × Ty)) (ret : Ty)

/-- Well-formedness of a supertrait arena: every direct supertrait of node
i was constructed before i, hence has a strictly smaller index. This is
exactly what Trait::new enforces by accepting only references to already
existing Arc values. -/
def wfSupers (supers : List (List Nat)) : Bool :=
  (List.range supers.length).all fun i => (supers.getD i []).all fun j => decide (j < i)

/-- A trait arena together with its construction-order invariant. -/
structure TraitGraph where
  supers : List (List Nat)
  wf : wfSupers supers = true

/-- Direct supertrait relation of the arena: j is listed among the direct
supertraits of i. -/
abbrev superRel (g : TraitGraph) (i j : Nat) : Prop := j ∈ g.supers.getD i []

theorem superRel_lt (g : TraitGraph) {i j : Nat} (h : j ∈ g.supers.getD i []) : j < i := by
  have hwf := g.wf
  simp only [wfSupers, List.all_eq_true, List.mem_range, decide_eq_true_eq] at hwf
  by_cases hi : i < g.supers.length
  · exact hwf i hi j h
  · rw [List.getD_eq_default] at h
    · simp at h
    · omega

mutual
/-- Structural measure on types used to justify termination of the
assignability recursion: a trait node weighs one more than its arena
index (its direct supertraits have smaller indices, hence smaller
weight), and a function weighs more than each of its components. -/
def Ty.weight : Ty → Nat
  | .prim _ => 1
  | .trait i => i + 1
  | .func args ret => 1 + ret.weight + weightArgs args

def weightArgs : List (String × Ty) → Nat
  | [] => 0
  | a :: rest => a.2.weight + weightArgs rest
end

theorem weight_pos (t : Ty) : 0 < t.weight := by
  cases t <;> simp [Ty.weight]

theorem weight_mem_args {x : String × Ty} {args : List (String × Ty)} (h : x ∈ args) :
    x.2.weight ≤ weightArgs args := by
  induction args with
  | nil => simp at h
  | cons a rest ih =>
    rcases List.mem_cons.mp h with h | h
    · subst h; simp [weightArgs]
    · have hle := ih h
      simp only [weightArgs]
      omega

/-- Default override hook of the Type capability (Type::is_supertype_of in
src/types.rs, lines 15 to 17): it always returns None, and none of the
three shipped representations overrides it. -/
def is_supertype_of (_self _candidate : Ty) : Option Bool := none

/-- The double dispatch protocol of is_assignable_to, parametric in the
override hook so the protocol claims can quantify over arbitrary
representations. Each shipped impl first asks hook b a (the Rust call
other.is_supertype_of(self.boxed())) and returns its decision when there
is one; otherwise it narrows b to its own representation and applies the
representation specific rule from src/types.rs:
- Primitive (lines 80 to 91): the narrowed value must equal self.
- Trait (lines 106 to 117): pointer identity with the narrowed target, or
  some direct supertrait is assignable to it (List.any short-circuits on
  the first success just as Iterator::any does).
- Function (lines 144 to 171): equal arity, covariant return, and
  contravariant arguments position by position.
Narrowing failure (a mismatched representation) yields false. -/
def isAssignableToWith (g : TraitGraph) (hook : Ty → Ty → Option Bool) (a b : Ty) : Bool :=
  (hook b a).getD
    (match a, b with
    | .prim p, .prim q => decide (p = q)
    | .prim _, _ => false
    | .trait i, .trait j =>
      decide (i = j) || (g.supers.getD i []).attach.any fun s =>
        isAssignableToWith g hook (.trait s.1) (.trait j)
    | .trait _, _ => false
    | .func args ret, .func args2 ret2 =>
      if (args.length == args2.length) && isAssignableToWith g hook ret ret2 then
        (args.zip args2).attach.all fun p =>
          isAssignableToWith g hook p.1.2.2 p.1.1.2
      else false
    | .func _ _, _ => false)
termination_by a.weight + b.weight
decreasing_by
  · have hs := superRel_lt g s.2
    simp [Ty.weight]
    omega
  · simp [Ty.weight]
    omega
  · obtain ⟨⟨x, y⟩, hp⟩ := p
    have hmem := List.of_mem_zip hp
    have h1 := weight_mem_args hmem.1
    have h2 := weight_mem_args hmem.2
    simp only [Ty.weight]
    omega

/-- The shipped assignability relation: the dispatch protocol with the
default hook, which is what the three impls in src/types.rs compute. -/
def isAssignableTo (g : TraitGraph) : Ty → Ty → Bool := isAssignableToWith g is_supertype_of

/-- Second definition for the refinement claim C10, following the words of
the spec (sections 4.3 to 4.5): the narrowing fallback rules alone, with
no override hook consulted anywhere. -/
def fallbackAssignable (g : TraitGraph) (a b : Ty) : Bool :=
  match a, b with
  | .prim p, .prim q => decide (p = q)
  | .prim _, _ => false
  | .trait i, .trait j =>
    decide (i = j) || (g.supers.getD i []).attach.any fun s =>
      fallbackAssignable g (.trait s.1) (.trait j)
  | .trait _, _ => false
  | .func args ret, .func args2 ret2 =>
    if (args.length == args2.length) && fallbackAssignable g ret ret2 then
      (args.zip args2).attach.all fun p =>
        fallbackAssignable g p.1.2.2 p.1.1.2
    else false
  | .func _ _, _ => false
termination_by a.weight + b.weight
decreasing_by
  · have hs := superRel_lt g s.2
    simp [Ty.weight]
    omega
  · simp [Ty.weight]
    omega
  · obtain ⟨⟨x, y⟩, hp⟩ := p
    have hmem := List.of_mem_zip hp
    have h1 := weight_mem_args hmem.1
    have h2 := weight_mem_args hmem.2
    simp only [Ty.weight]
    omega

mutual
/-- Erases every argument name in a type, keeping all argument types and
structure; used to state that names play no role in assignability. -/
def stripNames : Ty → Ty
  | .prim p => .prim p
  | .trait i => .trait i
  | .func args ret => .func (stripArgs args) (stripNames ret)

def stripArgs : List (String × Ty) → List (String × Ty)
  | [] => []
  | a :: rest => ("", stripNames a.2) :: stripArgs rest
end

/-- Sequential combination of intermediate results of an existential
search, where none models a subcall that does not come back: the search
stops at the first true, exactly like Iterator::any in the Trait rule. -/
def shortCircuitAny : List (Option Bool) → Option Bool
  | [] => some false
  | some true :: _ => some true
  | some false :: rest => shortCircuitAny rest
  | none :: _ => none

/-- Sequential combination of intermediate results of a universal check,
stopping at the first false, like the early returns in the Function rule. -/
def shortCircuitAll : List (Option Bool) → Option Bool
  | [] => some true
  | some false :: _ => some false
  | some true :: rest => shortCircuitAll rest
  | none :: _ => none

/-- Fuel-indexed evaluator of the shipped assignability computation: each
recursive call of the Rust code consumes one unit of fuel, and none
models a computation that does not finish within the given fuel. It takes
the raw supertrait arena with no well-formedness requirement, so it is
meaningful on cyclic graphs as well; claim C6 shows that on a well-formed
arena a fuel budget given by the weight measure always suffices. -/
def assignFuel (supers : List (List Nat)) : Nat → Ty → Ty → Option Bool
  | 0, _, _ => none
  | fuel + 1, a, b =>
    match a, b with
    | .prim p, .prim q => some (decide (p = q))
    | .prim _, _ => some false
    | .trait i, .trait j =>
      if i = j then some true
      else shortCircuitAny
        ((supers.getD i []).map fun s => assignFuel supers fuel (.trait s) (.trait j))
    | .trait _, _ => some false
    | .func args ret, .func args2 ret2 =>
      if args.length = args2.length then
        shortCircuitAll (assignFuel supers fuel ret ret2 ::
          (args.zip args2).map fun p => assignFuel supers fuel p.2.2 p.1.2)
      else some false
    | .func _ _, _ => some false

/-- Positivity predicate on primitive widths, the property claim C8
asserts of every constructible Int or UInt. -/
def widthPositive : Primitive → Prop
  | .Int w => 0 < w
  | .UInt w => 0 < w
  | _ => True

/-- The empty arena: no trait node constructed yet. -/
def emptyGraph : TraitGraph := ⟨[], rfl⟩

/-- Arena of the chain life (0), animal (1, supertrait life), dog (2,
supertrait animal) from the tests in src/types.rs. -/
def chainGraph : TraitGraph := ⟨[[], [0], [1]], by decide⟩

/-- Sample overriding hook for the protocol witnesses: a representation
that unilaterally declares trait node 0 a supertype of everything. -/
def probeHook : Ty → Ty → Option Bool :=
  fun x _ => match x with
  | .trait 0 => some true
  | _ => none

theorem assign_pp (g : TraitGraph) (p q : Primitive) :
    isAssignableTo g (.prim p) (.prim q) = decide (p = q) := by
  conv_lhs => unfold isAssignableTo isAssignableToWith
  rfl

theorem assign_pt (g : TraitGraph) (p : Primitive) (j : Nat) :
    isAssignableTo g (.prim p) (.trait j) = false := by
  conv_lhs => unfold isAssignableTo isAssignableToWith
  rfl

theorem assign_pf (g : TraitGraph) (p : Primitive) (args2 : List (String × Ty)) (ret2 : Ty) :
    isAssignableTo g (.prim p) (.func args2 ret2) = false := by
  conv_lhs => unfold isAssignableTo isAssignableToWith
  rfl

theorem assign_tp (g : TraitGraph) (i : Nat) (q : Primitive) :
    isAssignableTo g (.trait i) (.prim q) = false := by
  conv_lhs => unfold isAssignableTo isAssignableToWith
  rfl

theorem assign_tf (g : TraitGraph) (i : Nat) (args2 : List (String × Ty)) (ret2 : Ty) :
    isAssignableTo g (.trait i) (.func args2 ret2) = false := by
  conv_lhs => unfold isAssignableTo isAssignableToWith
  rfl

theorem assign_fp (g : TraitGraph) (args : List (String × Ty)) (ret : Ty) (q : Primitive) :
    isAssignableTo g (.func args ret) (.prim q) = false := by
  conv_lhs => unfold isAssignableTo isAssignableToWith
  rfl

theorem assign_ft (g : TraitGraph) (args : List (String × Ty)) (ret : Ty) (j : Nat) :
    isAssignableTo g (.func args ret) (.trait j) = false := by
  conv_lhs => unfold isAssignableTo isAssignableToWith
  rfl

theorem assign_tt (g : TraitGraph) (i j : Nat) :
    isAssignableTo g (.trait i) (.trait j) =
      (decide (i = j) || (g.supers.getD i []).any fun s =>
        isAssignableTo g (.trait s) (.trait j)) := by
  conv_lhs => unfold isAssignableTo isAssignableToWith
  rw [Bool.eq_iff_iff]
  simp only [isAssignableTo, is_supertype_of, Option.getD_none, Bool.or_eq_true,
    List.any_eq_true, List.mem_attach, true_and, Subtype.exists, decide_eq_true_eq, exists_prop]

theorem assign_ff (g : TraitGraph) (args args2 : List (String × Ty)) (ret ret2 : Ty) :
    isAssignableTo g (.func args ret) (.func args2 ret2) =
      ((args.length == args2.length) && isAssignableTo g ret ret2 &&
        ((args.zip args2).all fun p => isAssignableTo g p.2.2 p.1.2)) := by
  conv_lhs => unfold isAssignableTo isAssignableToWith
  rw [Bool.eq_iff_iff]
  simp only [isAssignableTo, is_supertype_of, Option.getD_none]
  by_cases h : (args.length == args2.length) && isAssignableToWith g is_supertype_of ret ret2
  · simp only [h, if_true, Bool.true_and]
    simp only [List.all_eq_true, List.mem_attach, true_and, Subtype.forall, true_implies]
  · simp only [h, if_false, Bool.false_and]
    simp

theorem fb_pp (g : TraitGraph) (p q : Primitive) :
    fallbackAssignable g (.prim p) (.prim q) = decide (p = q) := by
  conv_lhs => unfold fallbackAssignable

theorem fb_pt (g : TraitGraph) (p : Primitive) (j : Nat) :
    fallbackAssignable g (.prim p) (.trait j) = false := by
  conv_lhs => unfold fallbackAssignable

theorem fb_pf (g : TraitGraph) (p : Primitive) (args2 : List (String × Ty)) (ret2 : Ty) :
    fallbackAssignable g (.prim p) (.func args2 ret2) = false := by
  conv_lhs => unfold fallbackAssignable

theorem fb_tp (g : TraitGraph) (i : Nat) (q : Primitive) :
    fallbackAssignable g (.trait i) (.prim q) = false := by
  conv_lhs => unfold fallbackAssignable

theorem fb_tf (g : TraitGraph) (i : Nat) (args2 : List (String × Ty)) (ret2 : Ty) :
    fallbackAssignable g (.trait i) (.func args2 ret2) = false := by
  conv_lhs => unfold fallbackAssignable

theorem fb_fp (g : TraitGraph) (args : List (String × Ty)) (ret : Ty) (q : Primitive) :
    fallbackAssignable g (.func args ret) (.prim q) = false := by
  conv_lhs => unfold fallbackAssignable

theorem fb_ft (g : TraitGraph) (args : List (String × Ty)) (ret : Ty) (j : Nat) :
    fallbackAssignable g (.func args ret) (.trait j) = false := by
  conv_lhs => unfold fallbackAssignable

theorem fb_tt (g : TraitGraph) (i j : Nat) :
    fallbackAssignable g (.trait i) (.trait j) =
      (decide (i = j) || (g.supers.getD i []).any fun s =>
        fallbackAssignable g (.trait s) (.trait j)) := by
  conv_lhs => unfold fallbackAssignable
  rw [Bool.eq_iff_iff]
  simp only [Bool.or_eq_true, List.any_eq_true, List.mem_attach, true_and,
    Subtype.exists, decide_eq_true_eq, exists_prop]

theorem fb_ff (g : TraitGraph) (args args2 : List (String × Ty)) (ret ret2 : Ty) :
    fallbackAssignable g (.func args ret) (.func args2 ret2) =
      ((args.length == args2.length) && fallbackAssignable g ret ret2 &&
        ((args.zip args2).all fun p => fallbackAssignable g p.2.2 p.1.2)) := by
  conv_lhs => unfold fallbackAssignable
  rw [Bool.eq_iff_iff]
  by_cases h : (args.length == args2.length) && fallbackAssignable g ret ret2
  · simp only [h, if_true, Bool.true_and]
    simp only [List.all_eq_true, List.mem_attach, true_and, Subtype.forall, true_implies]
  · simp only [h, if_false, Bool.false_and]
    simp

theorem any_congr_mem {α : Type} {l : List α} {f h : α → Bool}
    (hfh : ∀ x ∈ l, f x = h x) : l.any f = l.any h := by
  induction l with
  | nil => rfl
  | cons a rest ih =>
    simp only [List.any_cons]
    rw [hfh a (by simp), ih fun x hx => hfh x (List.mem_cons_of_mem a hx)]

theorem all_congr_mem {α : Type} {l : List α} {f h : α → Bool}
    (hfh : ∀ x ∈ l, f x = h x) : l.all f = l.all h := by
  induction l with
  | nil => rfl
  | cons a rest ih =>
    simp only [List.all_cons]
    rw [hfh a (by simp), ih fun x hx => hfh x (List.mem_cons_of_mem a hx)]

theorem trait_trait_iff (g : TraitGraph) :
    ∀ i j : Nat, isAssignableTo g (.trait i) (.trait j) = true ↔
      Relation.ReflTransGen (superRel g) i j := by
  intro i
  induction i using Nat.strong_induction_on with
  | _ i ih =>
    intro j
    rw [assign_tt, Bool.or_eq_true, decide_eq_true_eq, List.any_eq_true]
    constructor
    · rintro (rfl | ⟨s, hs, hrec⟩)
      · exact Relation.ReflTransGen.refl
      · exact Relation.ReflTransGen.head hs ((ih s (superRel_lt g hs) j).mp hrec)
    · intro h
      rcases Relation.ReflTransGen.cases_head h with rfl | ⟨s, hstep, hrest⟩
      · left; rfl
      · exact Or.inr ⟨s, hstep, (ih s (superRel_lt g hstep) j).mpr hrest⟩

theorem transGen_lt (g : TraitGraph) {i j : Nat}
    (h : Relation.TransGen (superRel g) i j) : j < i := by
  induction h with
  | single h1 => exact superRel_lt g h1
  | tail _ hbc ih => exact lt_trans (superRel_lt g hbc) ih

theorem reflTransGen_le (g : TraitGraph) {i j : Nat}
    (h : Relation.ReflTransGen (superRel g) i j) : j ≤ i := by
  induction h with
  | refl => exact le_rfl
  | tail _ hbc ih => exact le_of_lt (lt_of_lt_of_le (superRel_lt g hbc) ih)

theorem forall_zip_index {α β : Type} (l1 : List α) (l2 : List β) (P : α × β → Prop) :
    (∀ p ∈ l1.zip l2, P p) ↔
      ∀ (i : Nat) (h1 : i < l1.length) (h2 : i < l2.length),
        P (l1.get ⟨i, h1⟩, l2.get ⟨i, h2⟩) := by
  constructor
  · intro h i h1 h2
    have hz : i < (l1.zip l2).length := by
      rw [List.length_zip]
      exact lt_min h1 h2
    have heq : (l1.zip l2).get ⟨i, hz⟩ = (l1.get ⟨i, h1⟩, l2.get ⟨i, h2⟩) := by
      simp [List.get_eq_getElem, List.getElem_zip]
    rw [← heq]
    exact h _ (List.get_mem _ _ _)
  · intro h p hp
    obtain ⟨⟨i, hz⟩, hget⟩ := List.mem_iff_get.mp hp
    have hb : i < l1.length ∧ i < l2.length := by
      rw [List.length_zip] at hz
      exact ⟨lt_of_lt_of_le hz (min_le_left _ _), lt_of_lt_of_le hz (min_le_right _ _)⟩
    have heq : p = (l1.get ⟨i, hb.1⟩, l2.get ⟨i, hb.2⟩) := by
      rw [← hget]
      simp [List.get_eq_getElem, List.getElem_zip]
    rw [heq]
    exact h i hb.1 hb.2

theorem zip_self_mem {α : Type} {l : List α} {p : α × α} (hp : p ∈ l.zip l) : p.1 = p.2 := by
  induction l with
  | nil => simp at hp
  | cons a rest ih =>
    rw [List.zip_cons_cons] at hp
    rcases List.mem_cons.mp hp with h | h
    · rw [h]
    · exact ih h

theorem stripArgs_length (args : List (String × Ty)) : (stripArgs args).length = args.length := by
  induction args with
  | nil => rfl
  | cons a rest ih => simp [stripArgs, ih]

theorem stripArgs_zip (l1 l2 : List (String × Ty)) :
    (stripArgs l1).zip (stripArgs l2) =
      (l1.zip l2).map fun p => (("", stripNames p.1.2), ("", stripNames p.2.2)) := by
  induction l1 generalizing l2 with
  | nil => simp [stripArgs]
  | cons a rest ih =>
    cases l2 with
    | nil => simp [stripArgs]
    | cons b rest2 => simp [stripArgs, List.zip_cons_cons, ih]

theorem shortAny_map {α : Type} (l : List α) (f : α → Option Bool) (p : α → Bool)
    (hf : ∀ x ∈ l, f x = some (p x)) :
    shortCircuitAny (l.map f) = some (l.any p) := by
  induction l with
  | nil => rfl
  | cons a rest ih =>
    rw [List.map_cons, hf a (by simp)]
    have htail := ih fun x hx => hf x (List.mem_cons_of_mem a hx)
    cases hpa : p a with
    | true => simp [shortCircuitAny, List.any_cons, hpa]
    | false => simp [shortCircuitAny, List.any_cons, hpa, htail]

theorem shortAll_map {α : Type} (l : List α) (f : α → Option Bool) (p : α → Bool)
    (hf : ∀ x ∈ l, f x = some (p x)) :
    shortCircuitAll (l.map f) = some (l.all p) := by
  induction l with
  | nil => rfl
  | cons a rest ih =>
    rw [List.map_cons, hf a (by simp)]
    have htail := ih fun x hx => hf x (List.mem_cons_of_mem a hx)
    cases hpa : p a with
    | true => simp [shortCircuitAll, List.all_cons, hpa, htail]
    | false => simp [shortCircuitAll, List.all_cons, hpa]

/-- Claim C1: for every trait T and type U, T.is_assignable_to(U) is true
exactly when U narrows to a trait node and that node is T itself or is
reachable from T through the direct supertrait relation; that is, trait
assignability is the reflexive transitive closure of the direct
supertrait relation, through any chain of supertraits. -/
theorem trait_assignability_is_reachability (g : TraitGraph) (i : Nat) (u : Ty) :
    isAssignableTo g (.trait i) u = true ↔
      ∃ j, u = Ty.trait j ∧ Relation.ReflTransGen (superRel g) i j := by
  cases u with
  | prim p =>
    rw [assign_tp]
    simp
  | trait j =>
    rw [trait_trait_iff]
    constructor
    · intro h
      exact ⟨j, rfl, h⟩
    · rintro ⟨j2, heq, hr⟩
      cases heq
      exact hr
  | func args2 ret2 =>
    rw [assign_tf]
    simp

/-- Claim C3: a primitive P is assignable to U exactly when U is the very
same primitive, with identical variant and width; in particular distinct
widths never relate and no primitive is assignable to a trait or
function. -/
theorem primitive_assignability_is_equality (g : TraitGraph) (p : Primitive) (u : Ty) :
    isAssignableTo g (.prim p) u = true ↔ u = Ty.prim p := by
  cases u with
  | prim q =>
    rw [assign_pp]
    simp [eq_comm]
  | trait j =>
    rw [assign_pt]
    simp
  | func args2 ret2 =>
    rw [assign_pf]
    simp

/-- Claim C4: the override hook is consulted first and its decision is
final: whatever the two representations are, if the hook of b decides d
on candidate a, the whole query a.is_assignable_to(b) returns exactly d
and the narrowing fallback is never reached. -/
theorem hook_decision_is_final (g : TraitGraph) (hook : Ty → Ty → Option Bool)
    (a b : Ty) (d : Bool) (h : hook b a = some d) :
    isAssignableToWith g hook a b = d := by
  conv_lhs => unfold isAssignableToWith
  rw [h]
  rfl

/-- Witness for C4: a hook declaring trait node 0 a supertype of
everything makes a primitive assignable to that trait, although the
narrowing fallback would have said false. -/
theorem hook_decision_is_final_witness :
    probeHook (Ty.trait 0) (Ty.prim Primitive.Boolean) = some true ∧
      isAssignableToWith emptyGraph probeHook (Ty.prim Primitive.Boolean) (Ty.trait 0) = true :=
  ⟨rfl, hook_decision_is_final emptyGraph probeHook _ _ true rfl⟩

/-- Claim C5: reflexivity: every type built from the three shipped
representations is assignable to itself. -/
theorem assignability_reflexive (g : TraitGraph) (t : Ty) : isAssignableTo g t t = true := by
  have key : ∀ (n : Nat) (t : Ty), t.weight ≤ n → isAssignableTo g t t = true := by
    intro n
    induction n with
    | zero =>
      intro t ht
      have := weight_pos t
      omega
    | succ n ih =>
      intro t ht
      cases t with
      | prim p =>
        rw [assign_pp]
        simp
      | trait i =>
        rw [assign_tt]
        simp
      | func args ret =>
        rw [assign_ff]
        simp only [Ty.weight] at ht
        have hret : isAssignableTo g ret ret = true := ih ret (by omega)
        have hall : ((args.zip args).all fun p => isAssignableTo g p.2.2 p.1.2) = true := by
          rw [List.all_eq_true]
          intro p hp
          have hpp : p.1 = p.2 := zip_self_mem hp
          have hmem := (List.of_mem_zip hp).1
          rw [← hpp]
          exact ih p.1.2 (by have := weight_mem_args hmem; omega)
        simp [hret, hall]
  exact key t.weight t le_rfl

/-- Claim C7: asymmetry on traits: when a is a strict transitive ancestor
of b in the supertrait graph, b is assignable to a but a is never
assignable back to b. -/
theorem trait_assignability_asymmetric (g : TraitGraph) (a b : Nat)
    (h : Relation.TransGen (superRel g) b a) :
    isAssignableTo g (.trait b) (.trait a) = true ∧
      isAssignableTo g (.trait a) (.trait b) = false := by
  constructor
  · exact (trait_trait_iff g b a).mpr h.to_reflTransGen
  · cases hval : isAssignableTo g (.trait a) (.trait b) with
    | false => rfl
    | true =>
      exfalso
      have hr := (trait_trait_iff g a b).mp hval
      have h1 := reflTransGen_le g hr
      have h2 := transGen_lt g h
      omega

/-- Witness for C7: in the chain life (0), animal (1), dog (2), dog is a
strict descendant of life; dog is assignable to life and life is not
assignable to dog. -/
theorem trait_assignability_asymmetric_witness :
    Relation.TransGen (superRel chainGraph) 2 0 ∧
      (isAssignableTo chainGraph (Ty.trait 2) (Ty.trait 0) = true ∧
        isAssignableTo chainGraph (Ty.trait 0) (Ty.trait 2) = false) := by
  have h1 : superRel chainGraph 2 1 := by decide
  have h2 : superRel chainGraph 1 0 := by decide
  have h : Relation.TransGen (superRel chainGraph) 2 0 :=
    Relation.TransGen.head h1 (Relation.TransGen.single h2)
  exact ⟨h, trait_assignability_asymmetric chainGraph 0 2 h⟩

/-- Counterexample for claim C8: Primitive::Int takes a usize, so the
width zero is admitted by the public constructor; Int(0) exists, violates
the positivity the claim asserts, and participates in an assignability
query like any other primitive. -/
theorem int_zero_width_counterexample :
    ¬ widthPositive (Primitive.Int 0) ∧
      isAssignableTo emptyGraph (Ty.prim (Primitive.Int 0)) (Ty.prim (Primitive.Int 0)) = true := by
  constructor
  · intro hcontra
    simp [widthPositive] at hcontra
  · rw [assign_pp]
    decide

/-- Claim C8 as amended: primitive widths are arbitrary unsigned machine
integers, zero included; a zero width Int or UInt is constructible and
participates in assignability queries under the exact equality rule. -/
theorem primitive_widths_unrestricted (g : TraitGraph) (w : Nat) :
    isAssignableTo g (.prim (.Int w)) (.prim (.Int w)) = true ∧
      isAssignableTo g (.prim (.UInt w)) (.prim (.UInt w)) = true ∧
      isAssignableTo g (.prim (.Int w)) (.prim (.UInt w)) = false := by
  refine ⟨?_, ?_, ?_⟩ <;> rw [assign_pp] <;> simp

theorem strip_assign (g : TraitGraph) : ∀ a b : Ty,
    isAssignableTo g (stripNames a) (stripNames b) = isAssignableTo g a b := by
  have key : ∀ (n : Nat) (a b : Ty), a.weight + b.weight ≤ n →
      isAssignableTo g (stripNames a) (stripNames b) = isAssignableTo g a b := by
    intro n
    induction n with
    | zero =>
      intro a b h
      have := weight_pos a
      have := weight_pos b
      omega
    | succ n ih =>
      intro a b h
      cases a with
      | prim p =>
        cases b with
        | prim q => simp only [stripNames]
        | trait j => simp only [stripNames]
        | func args2 ret2 =>
          simp only [stripNames]
          rw [assign_pf, assign_pf]
      | trait i =>
        cases b with
        | prim q => simp only [stripNames]
        | trait j => simp only [stripNames]
        | func args2 ret2 =>
          simp only [stripNames]
          rw [assign_tf, assign_tf]
      | func args ret =>
        cases b with
        | prim q =>
          simp only [stripNames]
          rw [assign_fp, assign_fp]
        | trait j =>
          simp only [stripNames]
          rw [assign_ft, assign_ft]
        | func args2 ret2 =>
          simp only [stripNames]
          rw [assign_ff, assign_ff]
          simp only [Ty.weight] at h
          have hret := ih ret ret2 (by omega)
          rw [stripArgs_length, stripArgs_length, hret, stripArgs_zip, List.all_map]
          have hcong : ∀ p ∈ args.zip args2,
              ((fun q => isAssignableTo g q.2.2 q.1.2) ∘ fun q =>
                (("", stripNames q.1.2), ("", stripNames q.2.2))) p =
              isAssignableTo g p.2.2 p.1.2 := by
            intro p hp
            have hm := List.of_mem_zip hp
            have h1 := weight_mem_args hm.1
            have h2 := weight_mem_args hm.2
            simp only [Function.comp]
            exact ih p.2.2 p.1.2 (by omega)
          rw [all_congr_mem hcong]
  intro a b
  exact key (a.weight + b.weight) a b le_rfl

/-- Claim C2: a function F is assignable to U exactly when U narrows to a
function of the same arity whose return type F covariantly matches and
whose argument types contravariantly match position by position; argument
names are irrelevant, so erasing every name on either side never changes
any assignability result. -/
theorem function_assignability (g : TraitGraph) :
    (∀ (args args2 : List (String × Ty)) (ret ret2 : Ty),
      isAssignableTo g (.func args ret) (.func args2 ret2) = true ↔
        args.length = args2.length ∧ isAssignableTo g ret ret2 = true ∧
          ∀ (i : Nat) (h1 : i < args.length) (h2 : i < args2.length),
            isAssignableTo g (args2.get ⟨i, h2⟩).2 (args.get ⟨i, h1⟩).2 = true)
    ∧ (∀ (args : List (String × Ty)) (ret : Ty) (u : Ty),
        isAssignableTo g (.func args ret) u = true → ∃ args2 ret2, u = Ty.func args2 ret2)
    ∧ (∀ a b : Ty, isAssignableTo g (stripNames a) (stripNames b) = isAssignableTo g a b) := by
  refine ⟨?_, ?_, strip_assign g⟩
  · intro args args2 ret ret2
    rw [assign_ff]
    simp only [Bool.and_eq_true, beq_iff_eq, List.all_eq_true]
    rw [forall_zip_index args args2 fun p => isAssignableTo g p.2.2 p.1.2 = true]
    tauto
  · intro args ret u hu
    cases u with
    | func args2 ret2 => exact ⟨args2, ret2, rfl⟩
    | prim q =>
      rw [assign_fp] at hu
      simp at hu
    | trait j =>
      rw [assign_ft] at hu
      simp at hu

/-- Claim C6: termination: on a well-formed (acyclic by construction)
arena, the fuel evaluator of the assignability computation returns a
definite answer, equal to the total relation, whenever the fuel is at
least the combined weight of the two types; the recursion needs no cycle
detection, only the acyclicity invariant. -/
theorem query_terminates_with_weight_fuel (g : TraitGraph) :
    ∀ (fuel : Nat) (a b : Ty), a.weight + b.weight ≤ fuel →
      assignFuel g.supers fuel a b = some (isAssignableTo g a b) := by
  intro fuel
  induction fuel with
  | zero =>
    intro a b h
    have := weight_pos a
    have := weight_pos b
    omega
  | succ n ih =>
    intro a b h
    cases a with
    | prim p =>
      cases b with
      | prim q =>
        rw [assign_pp]
        simp [assignFuel]
      | trait j =>
        rw [assign_pt]
        simp [assignFuel]
      | func args2 ret2 =>
        rw [assign_pf]
        simp [assignFuel]
    | trait i =>
      cases b with
      | prim q =>
        rw [assign_tp]
        simp [assignFuel]
      | func args2 ret2 =>
        rw [assign_tf]
        simp [assignFuel]
      | trait j =>
        rw [assign_tt]
        by_cases hij : i = j
        · subst hij
          simp [assignFuel]
        · have hrec : ∀ s ∈ g.supers.getD i [],
              assignFuel g.supers n (Ty.trait s) (Ty.trait j) =
                some (isAssignableTo g (Ty.trait s) (Ty.trait j)) := by
            intro s hs
            apply ih
            have := superRel_lt g hs
            simp only [Ty.weight] at h ⊢
            omega
          have hany := shortAny_map (g.supers.getD i [])
            (fun s => assignFuel g.supers n (Ty.trait s) (Ty.trait j))
            (fun s => isAssignableTo g (Ty.trait s) (Ty.trait j)) hrec
          simp only [assignFuel, if_neg hij]
          rw [hany]
          simp [hij]
    | func args ret =>
      cases b with
      | prim q =>
        rw [assign_fp]
        simp [assignFuel]
      | trait j =>
        rw [assign_ft]
        simp [assignFuel]
      | func args2 ret2 =>
        rw [assign_ff]
        simp only [Ty.weight] at h
        have hret := ih ret ret2 (by omega)
        by_cases hlen : args.length = args2.length
        · have hrec : ∀ p ∈ args.zip args2,
              assignFuel g.supers n p.2.2 p.1.2 = some (isAssignableTo g p.2.2 p.1.2) := by
            intro p hp
            apply ih
            have hm := List.of_mem_zip hp
            have h1 := weight_mem_args hm.1
            have h2 := weight_mem_args hm.2
            omega
          have hall := shortAll_map (args.zip args2)
            (fun p => assignFuel g.supers n p.2.2 p.1.2)
            (fun p => isAssignableTo g p.2.2 p.1.2) hrec
          simp only [assignFuel, if_pos hlen]
          rw [hret]
          cases hv : isAssignableTo g ret ret2 with
          | false => simp [shortCircuitAll]
          | true =>
            simp only [shortCircuitAll]
            rw [hall]
            simp [hlen]
        · simp only [assignFuel, if_neg hlen]
          have hne : (args.length == args2.length) = false := by simp [hlen]
          simp [hne]

/-- Witness for C6: in the chain arena, the query from dog (2) to life (0)
finishes within fuel four, the weight bound, and agrees with the total
relation. -/
theorem query_terminates_with_weight_fuel_witness :
    (Ty.trait 2).weight + (Ty.trait 0).weight ≤ 4 ∧
      assignFuel chainGraph.supers 4 (Ty.trait 2) (Ty.trait 0) =
        some (isAssignableTo chainGraph (Ty.trait 2) (Ty.trait 0)) := by
  constructor
  · decide
  · exact query_terminates_with_weight_fuel chainGraph 4 (Ty.trait 2) (Ty.trait 0) (by decide)

/-- Claim C10: none of the three shipped representations overrides the
default hook, which returns None on every pair, so every query among them
is decided purely by the narrowing fallback rules: the full dispatch
coincides with the hookless fallback relation. -/
theorem default_hook_silent_and_fallback_decides :
    (∀ a b : Ty, is_supertype_of a b = none) ∧
      ∀ (g : TraitGraph) (a b : Ty), isAssignableTo g a b = fallbackAssignable g a b := by
  refine ⟨fun a b => rfl, fun g => ?_⟩
  have key : ∀ (n : Nat) (a b : Ty), a.weight + b.weight ≤ n →
      isAssignableTo g a b = fallbackAssignable g a b := by
    intro n
    induction n with
    | zero =>
      intro a b h
      have := weight_pos a
      have := weight_pos b
      omega
    | succ n ih =>
      intro a b h
      cases a with
      | prim p =>
        cases b with
        | prim q => rw [assign_pp, fb_pp]
        | trait j => rw [assign_pt, fb_pt]
        | func args2 ret2 => rw [assign_pf, fb_pf]
      | trait i =>
        cases b with
        | prim q => rw [assign_tp, fb_tp]
        | func args2 ret2 => rw [assign_tf, fb_tf]
        | trait j =>
          rw [assign_tt, fb_tt]
          have hcong : ∀ s ∈ g.supers.getD i [],
              isAssignableTo g (Ty.trait s) (Ty.trait j) =
                fallbackAssignable g (Ty.trait s) (Ty.trait j) := by
            intro s hs
            have := superRel_lt g hs
            simp only [Ty.weight] at h
            exact ih (Ty.trait s) (Ty.trait j) (by simp only [Ty.weight]; omega)
          rw [any_congr_mem hcong]
      | func args ret =>
        cases b with
        | prim q => rw [assign_fp, fb_fp]
        | trait j => rw [assign_ft, fb_ft]
        | func args2 ret2 =>
          rw [assign_ff, fb_ff]
          simp only [Ty.weight] at h
          rw [ih ret ret2 (by omega)]
          have hcong : ∀ p ∈ args.zip args2,
              isAssignableTo g p.2.2 p.1.2 = fallbackAssignable g p.2.2 p.1.2 := by
            intro p hp
            have hm := List.of_mem_zip hp
            have h1 := weight_mem_args hm.1
            have h2 := weight_mem_args hm.2
            exact ih p.2.2 p.1.2 (by omega)
          rw [all_congr_mem hcong]
  intro a b
  exact key (a.weight + b.weight) a b le_rfl

/-- Claim C9: acyclicity by construction: because every direct supertrait
was constructed before the trait that lists it, any nonempty supertrait
chain strictly decreases the construction index, so no trait is ever a
strict ancestor of itself and ancestry never runs both ways. -/
theorem supertrait_graph_acyclic (g : TraitGraph) (i j : Nat)
    (h : Relation.TransGen (superRel g) i j) :
    j < i ∧ ¬ Relation.TransGen (superRel g) j i := by
  refine ⟨transGen_lt g h, fun h2 => ?_⟩
  have := transGen_lt g h2
  have := transGen_lt g h
  omega

/-- Witness for C9: dog (2) strictly reaches life (0) in the chain arena,
life has the smaller index, and life does not reach dog. -/
theorem supertrait_graph_acyclic_witness :
    Relation.TransGen (superRel chainGraph) 2 0 ∧
      (0 < 2 ∧ ¬ Relation.TransGen (superRel chainGraph) 0 2) := by
  have h1 : superRel chainGraph 2 1 := by decide
  have h2 : superRel chainGraph 1 0 := by decide
  have h : Relation.TransGen (superRel chainGraph) 2 0 :=
    Relation.TransGen.head h1 (Relation.TransGen.single h2)
  exact ⟨h, supertrait_graph_acyclic chainGraph 2 0 h⟩

end MagTc
